import Mathlib

/-!
Verification of the container-splitting layer and the programmable-bootstrap
example of the `tfhe` repository excerpt.

Sources embedded here:
* `src/tfhe/src/core_crypto/commons/traits/container.rs` — the `Split` and
  `ParSplit` trait implementations for slices.  Both the `&[T]` and the
  `&mut [T]` implementations have the same splitting semantics (the mutable
  one only differs by exclusivity of the views), so a single model over
  `List α` covers both.  Panics and failed debug assertions are modelled as
  `Except.error` with a fixed message.
* `src/tfhe/examples/bounty.rs` — `generate_accumulator` and the constants of
  the end-to-end example (`message_modulus`, `delta`, the input message and
  the function `f x = 2 * x`).

u64 arithmetic is modelled as `Nat` with explicit reduction modulo `2 ^ 64`.
-/

/-- The modulus of `u64` arithmetic. -/
def u64Mod : Nat := 2 ^ 64

/-- Rust `u64::wrapping_neg`. -/
def wrappingNeg (x : Nat) : Nat := (u64Mod - x % u64Mod) % u64Mod

/-! ## Model of the slice chunking primitives

`core::slice::chunks_exact` (used by `Split`) panics on a zero chunk size and
otherwise yields the `len / n` full chunks, ignoring a remainder.
`rayon`'s `par_chunks` (used by `ParSplit`) panics on a zero chunk size and
otherwise yields ceiling-division many chunks, the last possibly short.
Both zero-size panics are modelled with one shared message. -/

/-- Panic message shared by `chunks_exact` and `par_chunks` on chunk size 0. -/
def chunkSizeZeroMsg : String := "chunk size must be non-zero"

/-- Message of a failed `debug_assert_eq!(self.len() % n, 0)`. -/
def divisibilityAssertMsg : String := "assertion failed: length is not divisible"

/-- Message of a failed `debug_assert_eq!(self.len(), 0)`. -/
def emptyAssertMsg : String := "assertion failed: length is not zero"

/-- Panic message of slice `split_at` with `mid` out of range. -/
def sliceIndexMsg : String := "mid is out of range of the slice"

/-- The chunks produced by `chunks_exact n` for `n > 0`: full chunks of size
`n`, the remainder dropped.  (For `n = 0` the caller errors first.) -/
def chunksExactGo (n : Nat) (l : List α) : List (List α) :=
  if _h : 0 < n ∧ n ≤ l.length then
    l.take n :: chunksExactGo n (l.drop n)
  else []
termination_by l.length
decreasing_by
  simp only [List.length_drop]
  omega

/-- `core::slice::chunks_exact` / `chunks_exact_mut`. -/
def chunksExact (l : List α) (n : Nat) : Except String (List (List α)) :=
  if n = 0 then .error chunkSizeZeroMsg else .ok (chunksExactGo n l)

/-- The chunks produced by rayon `par_chunks n` for `n > 0`: successive chunks
of size `n`, the last one possibly shorter. -/
def chunksCeilGo : Nat → List α → List (List α)
  | _, [] => []
  | 0, _ :: _ => []
  | n + 1, x :: xs =>
      (x :: xs).take (n + 1) :: chunksCeilGo (n + 1) ((x :: xs).drop (n + 1))
termination_by _ l => l.length
decreasing_by
  simp only [List.length_drop]
  simp only [List.length_cons]
  omega

/-- rayon `par_chunks` / `par_chunks_mut`. -/
def parChunks (l : List α) (n : Nat) : Except String (List (List α)) :=
  if n = 0 then .error chunkSizeZeroMsg else .ok (chunksCeilGo n l)

/-! ## The `Split` implementation for slices
(`container.rs`, lines 75-121; the `&[T]` and `&mut [T]` bodies coincide). -/

/-- `Split::into_chunks`: `debug_assert_eq!(self.len() % chunk_size, 0)` then
`chunks_exact(chunk_size)`.  (With `chunk_size = 0` and a non-empty slice the
Rust remainder itself panics; that abrupt termination is the same error
branch here, since `len % 0 = len` in Lean.) -/
def into_chunks (l : List α) (chunk_size : Nat) : Except String (List (List α)) :=
  if l.length % chunk_size ≠ 0 then .error divisibilityAssertMsg
  else chunksExact l chunk_size

/-- `Split::split_into`: for `chunk_count = 0`, assert emptiness and take
`chunks_exact(1)`; otherwise assert divisibility and take
`chunks_exact(len / chunk_count)`. -/
def split_into (l : List α) (chunk_count : Nat) : Except String (List (List α)) :=
  if chunk_count = 0 then
    if l.length ≠ 0 then .error emptyAssertMsg
    else chunksExact l 1
  else
    if l.length % chunk_count ≠ 0 then .error divisibilityAssertMsg
    else chunksExact l (l.length / chunk_count)

/-- `Split::split_at`, delegating to slice `split_at` / `split_at_mut`, which
panics when `mid > len`. -/
def split_at_slice (l : List α) (mid : Nat) : Except String (List α × List α) :=
  if mid ≤ l.length then .ok (l.take mid, l.drop mid) else .error sliceIndexMsg

/-! ## The `ParSplit` implementation for slices
(`container.rs`, lines 131-171). -/

/-- `ParSplit::into_par_chunks`: `par_chunks(chunk_size)`, no assertion. -/
def into_par_chunks (l : List α) (chunk_size : Nat) : Except String (List (List α)) :=
  parChunks l chunk_size

/-- `ParSplit::par_split_into`: `par_chunks(1)` when the requested count is 0,
otherwise `par_chunks(len / chunk_count)`, with no divisibility assertion. -/
def par_split_into (l : List α) (chunk_count : Nat) : Except String (List (List α)) :=
  if chunk_count = 0 then parChunks l 1
  else parChunks l (l.length / chunk_count)

/-- `ParSplit::par_split_at`, delegating to slice `split_at` / `split_at_mut`. -/
def par_split_at_slice (l : List α) (mid : Nat) : Except String (List α × List α) :=
  split_at_slice l mid

/-! ## Basic facts about the chunking model -/

theorem chunksExactGo_eq (n : Nat) (l : List α) :
    chunksExactGo n l =
      if 0 < n ∧ n ≤ l.length then l.take n :: chunksExactGo n (l.drop n)
      else [] := by
  rw [chunksExactGo]
  split <;> simp_all

theorem chunksCeilGo_one (l : List α) :
    chunksCeilGo 1 l = l.map (fun x => [x]) := by
  induction l with
  | nil => rw [chunksCeilGo]; rfl
  | cons x xs ih =>
      rw [chunksCeilGo]
      simpa using ih

/-- When the chunk size is positive and divides the length, the ceiling
chunking (rayon) and the exact chunking (`chunks_exact`) coincide. -/
theorem chunksCeilGo_eq_exact (n : Nat) (hn : 0 < n) :
    ∀ (L : Nat) (l : List α), l.length = L → n ∣ L →
      chunksCeilGo n l = chunksExactGo n l := by
  intro L
  induction L using Nat.strong_induction_on with
  | _ L ih =>
    intro l hl hdvd
    cases l with
    | nil =>
        rw [chunksCeilGo, chunksExactGo_eq, if_neg]
        simp only [List.length_nil]
        omega
    | cons x xs =>
        have hL : 0 < L := by simp [← hl]
        have hle : n ≤ L := Nat.le_of_dvd hL hdvd
        obtain ⟨m, rfl⟩ : ∃ m, n = m + 1 := ⟨n - 1, by omega⟩
        rw [chunksCeilGo, chunksExactGo_eq, if_pos ⟨hn, by omega⟩]
        congr 1
        exact ih (L - (m + 1)) (by omega) _ (by rw [List.length_drop, hl])
          (Nat.dvd_sub' hdvd dvd_rfl)

/-! ## Claim theorems about the splitting layer -/

/-- C2 (counterexample): on the empty buffer with a requested chunk count of
zero, the sequential `split_into` does NOT yield one zero-length chunk: it
yields `chunks_exact(1)` of the empty slice, i.e. no chunk at all. -/
theorem split_into_empty_zero_cex :
    split_into ([] : List Nat) 0 ≠ Except.ok [([] : List Nat)] := by
  simp [split_into, chunksExact, chunksExactGo_eq]

/-- C2 (amended): on the empty buffer with a requested chunk count of zero,
the sequential `split_into` yields an empty sequence of chunks. -/
theorem split_into_empty_zero :
    split_into ([] : List Nat) 0 = Except.ok ([] : List (List Nat)) := by
  simp [split_into, chunksExact, chunksExactGo_eq]

/-- C3: when the buffer length is not divisible by the requested chunk size
(`into_chunks`) or by the requested nonzero chunk count (`split_into`), the
call terminates abruptly with the failed assertion, modelled as the
`Except.error` carrying the assertion message — it neither returns a
recoverable value nor computes on a truncated buffer. -/
theorem nondivisible_fails_fast (l : List Nat) (n k : Nat)
    (hn : ¬ n ∣ l.length) (hk : k ≠ 0) (hkd : ¬ k ∣ l.length) :
    into_chunks l n = Except.error divisibilityAssertMsg ∧
    split_into l k = Except.error divisibilityAssertMsg := by
  have hn' : l.length % n ≠ 0 := fun h => hn (Nat.dvd_of_mod_eq_zero h)
  have hk' : l.length % k ≠ 0 := fun h => hkd (Nat.dvd_of_mod_eq_zero h)
  constructor
  · simp [into_chunks, hn']
  · simp [split_into, hk, hk']

theorem nondivisible_fails_fast_witness :
    (¬ (2 : Nat) ∣ ([0, 1, 2] : List Nat).length) ∧ ((2 : Nat) ≠ 0) ∧
    into_chunks ([0, 1, 2] : List Nat) 2 = Except.error divisibilityAssertMsg ∧
    split_into ([0, 1, 2] : List Nat) 2 = Except.error divisibilityAssertMsg :=
  ⟨by decide, by decide,
    nondivisible_fails_fast [0, 1, 2] 2 2 (by decide) (by decide) (by decide)⟩

/-- C4: whenever the requested chunk count `k` is nonzero and divides the
buffer length, the sequential `split_into` and the parallel `par_split_into`
return the same chunk sequence (hence the same number of chunks with
identical content); likewise `into_chunks` and `into_par_chunks` agree for
every chunk size `n` dividing the length. -/
theorem seq_par_chunking_agree (l : List Nat) (k n : Nat)
    (hk : k ≠ 0) (hkd : k ∣ l.length) (hnd : n ∣ l.length) :
    split_into l k = par_split_into l k ∧
    into_chunks l n = into_par_chunks l n := by
  constructor
  · obtain ⟨c, hc⟩ := hkd
    have hmod : l.length % k = 0 := by simp [hc]
    have hdiv : l.length / k = c := by
      rw [hc, Nat.mul_div_cancel_left _ (by omega)]
    rcases Nat.eq_zero_or_pos c with hc0 | hc0
    · subst hc0
      simp only [split_into, par_split_into, if_neg hk, hmod, hdiv]
      simp [chunksExact, parChunks]
    · have hcd : c ∣ l.length := ⟨k, by rw [hc, Nat.mul_comm]⟩
      simp only [split_into, par_split_into, if_neg hk, hmod, hdiv]
      simp only [chunksExact, parChunks, if_neg (by omega : ¬ c = 0)]
      rw [chunksCeilGo_eq_exact c hc0 l.length l rfl hcd]
      simp
  · rcases Nat.eq_zero_or_pos n with hn0 | hn0
    · subst hn0
      have hlen : l.length = 0 := Nat.eq_zero_of_zero_dvd hnd
      simp [into_chunks, into_par_chunks, chunksExact, parChunks, hlen]
    · obtain ⟨c, hc⟩ := hnd
      have hmod : l.length % n = 0 := by simp [hc]
      simp only [into_chunks, into_par_chunks, hmod, chunksExact, parChunks,
        if_neg (by omega : ¬ n = 0)]
      rw [chunksCeilGo_eq_exact n hn0 l.length l rfl ⟨c, hc⟩]
      simp

theorem seq_par_chunking_agree_witness :
    ((2 : Nat) ≠ 0) ∧ ((2 : Nat) ∣ ([0, 1, 2, 3] : List Nat).length) ∧
    ((4 : Nat) ∣ ([0, 1, 2, 3] : List Nat).length) ∧
    (split_into ([0, 1, 2, 3] : List Nat) 2 = par_split_into ([0, 1, 2, 3] : List Nat) 2 ∧
     into_chunks ([0, 1, 2, 3] : List Nat) 4 = into_par_chunks ([0, 1, 2, 3] : List Nat) 4) :=
  ⟨by decide, by decide, by decide,
    seq_par_chunking_agree [0, 1, 2, 3] 2 4 (by decide) (by decide) (by decide)⟩

/-- C9: the slice `split_at` used by `Split::split_at` returns, for an offset
within bounds, the pair of subslices of lengths `mid` and `len - mid` whose
concatenation is the original slice; for an offset past the end it panics. -/
theorem split_at_slice_spec (l : List Nat) (mid : Nat) :
    (∀ a b, split_at_slice l mid = Except.ok (a, b) →
        a.length = mid ∧ b.length = l.length - mid ∧ a ++ b = l) ∧
    (mid ≤ l.length → split_at_slice l mid = Except.ok (l.take mid, l.drop mid)) ∧
    (l.length < mid → split_at_slice l mid = Except.error sliceIndexMsg) := by
  refine ⟨?_, ?_, ?_⟩
  · intro a b h
    by_cases hc : mid ≤ l.length
    · simp only [split_at_slice, if_pos hc, Except.ok.injEq, Prod.mk.injEq] at h
      obtain ⟨rfl, rfl⟩ := h
      refine ⟨?_, ?_, List.take_append_drop mid l⟩
      · simp [Nat.min_eq_left hc]
      · simp
    · simp [split_at_slice, if_neg hc] at h
  · intro hc
    simp [split_at_slice, if_pos hc]
  · intro hc
    simp [split_at_slice, Nat.not_le_of_lt hc]

theorem split_at_slice_spec_witness :
    ((2 : Nat) ≤ ([5, 6, 7] : List Nat).length ∧
      split_at_slice ([5, 6, 7] : List Nat) 2 = Except.ok ([5, 6], [7])) ∧
    (([5, 6, 7] : List Nat).length < 9 ∧
      split_at_slice ([5, 6, 7] : List Nat) 9 = Except.error sliceIndexMsg) :=
  ⟨⟨by decide, (split_at_slice_spec [5, 6, 7] 2).2.1 (by decide)⟩,
    ⟨by decide, (split_at_slice_spec [5, 6, 7] 9).2.2 (by decide)⟩⟩

/-- C10: the parallel `par_split_into` with a requested chunk count of zero
never aborts: on any slice it yields one singleton chunk per element (so no
chunks at all on the empty slice), whereas the sequential `split_into` with
count zero asserts that the slice is empty and aborts on a non-empty one. -/
theorem par_split_into_zero_spec (l : List Nat) :
    par_split_into l 0 = Except.ok (l.map fun x => [x]) ∧
    (l ≠ [] → split_into l 0 = Except.error emptyAssertMsg) := by
  constructor
  · simp [par_split_into, parChunks, chunksCeilGo_one]
  · intro h
    have hlen : l.length ≠ 0 := by simpa [List.length_eq_zero] using h
    simp [split_into, hlen]

theorem par_split_into_zero_spec_witness :
    (([7, 8] : List Nat) ≠ []) ∧
    par_split_into ([7, 8] : List Nat) 0 = Except.ok [[7], [8]] ∧
    split_into ([7, 8] : List Nat) 0 = Except.error emptyAssertMsg :=
  ⟨by decide,
    (par_split_into_zero_spec [7, 8]).1,
    (par_split_into_zero_spec [7, 8]).2 (by decide)⟩

/-! ## The accumulator builder of `examples/bounty.rs`

`generate_accumulator` (lines 103-145): fill each of the `message_modulus`
boxes of size `box_size = polynomial_size / message_modulus` with
`f(i) * delta` (u64 arithmetic), negate the first `box_size / 2` entries with
`wrapping_neg`, rotate the buffer left by `box_size / 2`. -/

/-- The in-place write of the Rust slice
`accumulator_u64[index .. index + box_size]` (in bounds in every use here). -/
def write_box (l : List Nat) (s n : Nat) (v : Nat) : List Nat :=
  l.take s ++ List.replicate n v ++ l.drop (s + n)

/-- The fill loop of `generate_accumulator`: starting from
`vec![0; polynomial_size]`, write `f(i) * delta` into box `i` for each
`i < message_modulus`. -/
def fill_boxes (polynomial_size message_modulus delta : Nat)
    (f : Nat → Nat) : List Nat :=
  (List.range message_modulus).foldl
    (fun acc i =>
      write_box acc (i * (polynomial_size / message_modulus))
        (polynomial_size / message_modulus) ((f i * delta) % u64Mod))
    (List.replicate polynomial_size 0)

/-- The negacyclicity loop: `wrapping_neg` on the first `half` entries. -/
def negate_half (l : List Nat) (half : Nat) : List Nat :=
  (l.take half).map wrappingNeg ++ l.drop half

/-- `Vec::rotate_left` (the rotation amount is at most the length in every
use here). -/
def rotateLeftList (l : List α) (n : Nat) : List α := l.drop n ++ l.take n

/-- `generate_accumulator` from `examples/bounty.rs` (the resulting plaintext
vector; its trivial GLWE embedding copies these coefficients unchanged into
the body polynomial). -/
def generate_accumulator (polynomial_size message_modulus delta : Nat)
    (f : Nat → Nat) : List Nat :=
  rotateLeftList
    (negate_half (fill_boxes polynomial_size message_modulus delta f)
      (polynomial_size / message_modulus / 2))
    (polynomial_size / message_modulus / 2)

/-- The accumulator as described by claim C1: the length-`polynomial_size`
vector whose position `j` (lying in box `j / box_size`) holds
`f(j / box_size) * delta`, then the first `box_size / 2` entries negated,
then the whole buffer rotated left by `box_size / 2`. -/
def accumulator_claim (polynomial_size message_modulus delta : Nat)
    (f : Nat → Nat) : List Nat :=
  rotateLeftList
    (negate_half
      ((List.range polynomial_size).map
        (fun j => (f (j / (polynomial_size / message_modulus)) * delta) % u64Mod))
      (polynomial_size / message_modulus / 2))
    (polynomial_size / message_modulus / 2)

theorem write_box_length (l : List Nat) (s n : Nat) (v : Nat)
    (hs : s + n ≤ l.length) : (write_box l s n v).length = l.length := by
  unfold write_box
  simp only [List.length_append, List.length_take, List.length_replicate,
    List.length_drop]
  omega

theorem write_box_getElem? (l : List Nat) (s n : Nat) (v : Nat)
    (hs : s + n ≤ l.length) (j : Nat) :
    (write_box l s n v)[j]? =
      if s ≤ j ∧ j < s + n then some v else l[j]? := by
  unfold write_box
  have h1 : (l.take s).length = s := by
    rw [List.length_take]; omega
  rw [List.append_assoc]
  rcases Nat.lt_or_ge j s with hj | hj
  · rw [List.getElem?_append_left (by rw [h1]; exact hj)]
    rw [List.getElem?_take, if_pos hj, if_neg (by omega)]
  · rw [List.getElem?_append_right (by rw [h1]; omega), h1]
    rcases Nat.lt_or_ge j (s + n) with hj2 | hj2
    · rw [List.getElem?_append_left (by simp; omega)]
      rw [List.getElem?_replicate, if_pos (by omega), if_pos ⟨hj, hj2⟩]
    · rw [List.getElem?_append_right (by simp; omega)]
      simp only [List.length_replicate, List.getElem?_drop]
      rw [if_neg (by omega)]
      congr 1
      omega

theorem fill_boxes_zero (mm delta : Nat) (f : Nat → Nat) :
    fill_boxes 0 mm delta f = [] := by
  unfold fill_boxes
  suffices h : ∀ lr : List Nat,
      lr.foldl
        (fun acc i =>
          write_box acc (i * (0 / mm)) (0 / mm) ((f i * delta) % u64Mod))
        [] = [] by
    simpa using h (List.range mm)
  intro lr
  induction lr with
  | nil => rfl
  | cons a t ih => simp [write_box, Nat.zero_div, ih]

/-- Partial characterization of the fill loop: after writing boxes
`0, ..., t - 1`, position `j < t * box` holds `f(j / box) * delta` and the
rest is still zero. -/
theorem fill_boxes_partial (box delta : Nat) (f : Nat → Nat) (ps : Nat)
    (hbox : 0 < box) (t : Nat) (ht : t * box ≤ ps) :
    ((List.range t).foldl
        (fun acc i => write_box acc (i * box) box ((f i * delta) % u64Mod))
        (List.replicate ps 0)).length = ps ∧
    ∀ j, ((List.range t).foldl
        (fun acc i => write_box acc (i * box) box ((f i * delta) % u64Mod))
        (List.replicate ps 0))[j]? =
      if j < ps then
        some (if j < t * box then (f (j / box) * delta) % u64Mod else 0)
      else none := by
  induction t with
  | zero =>
      refine ⟨by simp, fun j => ?_⟩
      simp [List.getElem?_replicate]
  | succ t ih =>
      have ht' : t * box ≤ ps := le_trans (by nlinarith) ht
      obtain ⟨ihlen, ihget⟩ := ih ht'
      rw [List.range_succ, List.foldl_append]
      simp only [List.foldl_cons, List.foldl_nil]
      have hbound : t * box + box ≤
          ((List.range t).foldl
            (fun acc i => write_box acc (i * box) box ((f i * delta) % u64Mod))
            (List.replicate ps 0)).length := by
        rw [ihlen]
        calc t * box + box = (t + 1) * box := by ring
        _ ≤ ps := ht
      refine ⟨by rw [write_box_length _ _ _ _ hbound, ihlen], fun j => ?_⟩
      rw [write_box_getElem? _ _ _ _ hbound j, ihget j]
      by_cases hin : t * box ≤ j ∧ j < t * box + box
      · rw [if_pos hin]
        have hjps : j < ps := by
          have : j < (t + 1) * box := by
            calc j < t * box + box := hin.2
            _ = (t + 1) * box := by ring
          omega
        have hdivj : j / box = t :=
          Nat.div_eq_of_lt_le hin.1 (by calc j < t * box + box := hin.2
            _ = (t + 1) * box := by ring)
        rw [if_pos hjps, if_pos (by calc j < t * box + box := hin.2
          _ = (t + 1) * box := by ring), hdivj]
      · rw [if_neg hin]
        by_cases hjps : j < ps
        · rw [if_pos hjps, if_pos hjps]
          congr 1
          have : j < (t + 1) * box ↔ j < t * box := by
            constructor
            · intro h
              rcases Nat.lt_or_ge j (t * box) with h2 | h2
              · exact h2
              · exact absurd ⟨h2, by calc j < (t + 1) * box := h
                  _ = t * box + box := by ring⟩ hin
            · intro h
              calc j < t * box := h
              _ ≤ (t + 1) * box := by nlinarith
          by_cases hlt : j < t * box
          · rw [if_pos (this.mpr hlt), if_pos hlt]
          · rw [if_neg (fun h => hlt (this.mp h)), if_neg hlt]
        · rw [if_neg hjps, if_neg hjps]

/-- Under the divisibility precondition, the fill loop produces exactly the
pointwise description: position `j` holds `f(j / box_size) * delta`. -/
theorem fill_boxes_eq_pointwise (ps mm delta : Nat) (f : Nat → Nat)
    (hmm : 0 < mm) (hdvd : mm ∣ ps) :
    fill_boxes ps mm delta f =
      (List.range ps).map (fun j => (f (j / (ps / mm)) * delta) % u64Mod) := by
  rcases Nat.eq_zero_or_pos ps with hps | hps
  · subst hps
    simp [fill_boxes_zero]
  · have hbox : 0 < ps / mm := Nat.div_pos (Nat.le_of_dvd hps hdvd) hmm
    have hfull : mm * (ps / mm) = ps := Nat.mul_div_cancel' hdvd
    obtain ⟨hlen, hget⟩ :=
      fill_boxes_partial (ps / mm) delta f ps hbox mm (le_of_eq hfull)
    apply List.ext_getElem?
    intro j
    rw [show fill_boxes ps mm delta f =
      (List.range mm).foldl
        (fun acc i =>
          write_box acc (i * (ps / mm)) (ps / mm) ((f i * delta) % u64Mod))
        (List.replicate ps 0) from rfl, hget j]
    rcases Nat.lt_or_ge j ps with hj | hj
    · rw [if_pos hj, if_pos (show j < mm * (ps / mm) by rw [hfull]; exact hj)]
      rw [List.getElem?_map, List.getElem?_range hj]
      rfl
    · rw [if_neg (by omega)]
      rw [List.getElem?_eq_none (by simp; omega)]

theorem negate_half_length (l : List Nat) (half : Nat) (hh : half ≤ l.length) :
    (negate_half l half).length = l.length := by
  unfold negate_half
  simp only [List.length_append, List.length_map, List.length_take,
    List.length_drop]
  omega

theorem negate_half_getElem? (l : List Nat) (half : Nat) (hh : half ≤ l.length)
    (j : Nat) :
    (negate_half l half)[j]? =
      if j < half then (l[j]?).map wrappingNeg else l[j]? := by
  unfold negate_half
  have hlen : ((l.take half).map wrappingNeg).length = half := by
    simp only [List.length_map, List.length_take]
    omega
  rcases Nat.lt_or_ge j half with hj | hj
  · rw [List.getElem?_append_left (by rw [hlen]; exact hj)]
    rw [List.getElem?_map, List.getElem?_take, if_pos hj, if_pos hj]
  · rw [List.getElem?_append_right (by rw [hlen]; exact hj), hlen,
      List.getElem?_drop, if_neg (by omega)]
    congr 1
    omega

theorem rotateLeftList_length (l : List α) (n : Nat) :
    (rotateLeftList l n).length = l.length := by
  unfold rotateLeftList
  simp only [List.length_append, List.length_drop, List.length_take]
  omega

theorem rotateLeftList_getElem? (l : List α) (n : Nat) (hn : n ≤ l.length)
    (j : Nat) (hj : j < l.length) :
    (rotateLeftList l n)[j]? = l[(j + n) % l.length]? := by
  unfold rotateLeftList
  have hd : (l.drop n).length = l.length - n := by simp
  rcases Nat.lt_or_ge j (l.length - n) with hj2 | hj2
  · rw [List.getElem?_append_left (by rw [hd]; exact hj2), List.getElem?_drop]
    congr 1
    rw [Nat.mod_eq_of_lt (by omega)]
    omega
  · rw [List.getElem?_append_right (by rw [hd]; exact hj2), hd,
      List.getElem?_take, if_pos (by omega)]
    congr 1
    have h1 : (j + n) % l.length = j + n - l.length := by
      rw [Nat.mod_eq_sub_mod (by omega), Nat.mod_eq_of_lt (by omega)]
    omega

/-- The closed form of one coefficient of the built accumulator, at
position `j`: the pre-rotation position is `k = (j + half_box) % N`; its box
value is `f(k / box) * delta`, negated when `k` falls in the first half box. -/
def accEntry (ps mm delta : Nat) (f : Nat → Nat) (j : Nat) : Nat :=
  if (j + ps / mm / 2) % ps < ps / mm / 2 then
    wrappingNeg ((f ((j + ps / mm / 2) % ps / (ps / mm)) * delta) % u64Mod)
  else (f ((j + ps / mm / 2) % ps / (ps / mm)) * delta) % u64Mod

theorem generate_accumulator_length (ps mm delta : Nat) (f : Nat → Nat)
    (hmm : 0 < mm) (hdvd : mm ∣ ps) :
    (generate_accumulator ps mm delta f).length = ps := by
  have hhalf : ps / mm / 2 ≤ ps :=
    le_trans (Nat.div_le_self _ 2) (Nat.div_le_self _ mm)
  rw [generate_accumulator, rotateLeftList_length,
    negate_half_length _ _ (by rw [fill_boxes_eq_pointwise ps mm delta f hmm hdvd]; simp; omega)]
  rw [fill_boxes_eq_pointwise ps mm delta f hmm hdvd]
  simp

theorem generate_accumulator_getElem? (ps mm delta : Nat) (f : Nat → Nat)
    (hmm : 0 < mm) (hdvd : mm ∣ ps) (hps : 0 < ps) (j : Nat) (hj : j < ps) :
    (generate_accumulator ps mm delta f)[j]? = some (accEntry ps mm delta f j) := by
  have hhalf : ps / mm / 2 ≤ ps :=
    le_trans (Nat.div_le_self _ 2) (Nat.div_le_self _ mm)
  rw [generate_accumulator, fill_boxes_eq_pointwise ps mm delta f hmm hdvd]
  have hlen1 : ((List.range ps).map
      (fun j => (f (j / (ps / mm)) * delta) % u64Mod)).length = ps := by simp
  have hlen2 : (negate_half
      ((List.range ps).map (fun j => (f (j / (ps / mm)) * delta) % u64Mod))
      (ps / mm / 2)).length = ps := by
    rw [negate_half_length _ _ (by rw [hlen1]; exact hhalf), hlen1]
  rw [rotateLeftList_getElem? _ _ (by rw [hlen2]; exact hhalf) j
    (by rw [hlen2]; exact hj), hlen2]
  have hk : (j + ps / mm / 2) % ps < ps := Nat.mod_lt _ hps
  rw [negate_half_getElem? _ _ (by rw [hlen1]; exact hhalf)]
  rw [List.getElem?_map, List.getElem?_range hk]
  unfold accEntry
  by_cases hc : (j + ps / mm / 2) % ps < ps / mm / 2
  · rw [if_pos hc, if_pos hc]
    rfl
  · rw [if_neg hc, if_neg hc]
    rfl

/-- C1: for every `polynomial_size`, every positive `message_modulus` dividing
it, every `delta` and every `f`, the accumulator built by
`generate_accumulator` is exactly the vector described by the claim: boxes
`[i*box_size, (i+1)*box_size)` filled with `f(i) * delta` (u64 arithmetic),
the first `box_size / 2` entries negated wrapping modulo `2^64`, and the
whole buffer rotated left by `box_size / 2`. -/
theorem generate_accumulator_matches_claim (ps mm delta : Nat) (f : Nat → Nat)
    (hmm : 0 < mm) (hdvd : mm ∣ ps) :
    generate_accumulator ps mm delta f = accumulator_claim ps mm delta f := by
  rw [generate_accumulator, accumulator_claim,
    fill_boxes_eq_pointwise ps mm delta f hmm hdvd]

theorem generate_accumulator_matches_claim_witness :
    (0 < 4 ∧ (4 : Nat) ∣ 8) ∧
    generate_accumulator 8 4 5 (fun x => x) = accumulator_claim 8 4 5 (fun x => x) :=
  ⟨⟨by decide, by decide⟩,
    generate_accumulator_matches_claim 8 4 5 (fun x => x) (by decide) (by decide)⟩

/-- C7: with `message_modulus = 4`, `polynomial_size = 8` (`box_size = 2`,
`half_box_size = 1`) and `f x = x`, the pre-rotation buffer (boxes filled and
the first `half_box_size` entries negated) holds `0, 0` at positions 0 and 1,
and the built accumulator holds `f(i) * delta` at the center `i * box_size`
of each box `i ∈ 0, 1, 2, 3` (u64 arithmetic). -/
theorem accumulator_windowing_4_8 (delta : Nat) :
    (negate_half (fill_boxes 8 4 delta (fun x => x)) 1)[0]? = some 0 ∧
    (negate_half (fill_boxes 8 4 delta (fun x => x)) 1)[1]? = some 0 ∧
    (generate_accumulator 8 4 delta (fun x => x))[0]? = some ((0 * delta) % u64Mod) ∧
    (generate_accumulator 8 4 delta (fun x => x))[2]? = some ((1 * delta) % u64Mod) ∧
    (generate_accumulator 8 4 delta (fun x => x))[4]? = some ((2 * delta) % u64Mod) ∧
    (generate_accumulator 8 4 delta (fun x => x))[6]? = some ((3 * delta) % u64Mod) := by
  have hfe := fill_boxes_eq_pointwise 8 4 delta (fun x => x) (by decide) (by decide)
  have hg := generate_accumulator_getElem? 8 4 delta (fun x => x)
    (by decide) (by decide) (by decide)
  refine ⟨?_, ?_, ?_, ?_, ?_, ?_⟩
  · rw [hfe, negate_half_getElem? _ _ (by simp) 0, if_pos (by decide)]
    rw [List.getElem?_map, List.getElem?_range (by decide)]
    simp [wrappingNeg, u64Mod]
  · rw [hfe, negate_half_getElem? _ _ (by simp) 1, if_neg (by decide)]
    rw [List.getElem?_map, List.getElem?_range (by decide)]
    norm_num
  · rw [hg 0 (by decide)]
    norm_num [accEntry]
  · rw [hg 2 (by decide)]
    norm_num [accEntry]
  · rw [hg 4 (by decide)]
    norm_num [accEntry]
  · rw [hg 6 (by decide)]
    norm_num [accEntry]

/-! ## The end-to-end example of `examples/bounty.rs`

Concrete constants of `main` (lines 77-96): a 4-bit message space, the input
message 3, the encoding scale `delta`, and the lookup table `f x = 2 * x`. -/

/-- `let message_modulus = 1u64 << 4` (line 78). -/
def bounty_message_modulus : Nat := 1 <<< 4

/-- `let input_message = 3u64` (line 81). -/
def bounty_input_message : Nat := 3

/-- `let delta = (1_u64 << 63) / message_modulus` (line 84). -/
def bounty_delta : Nat := (1 <<< 63) / bounty_message_modulus

/-- `let polynomial_size = PolynomialSize(2048)` (line 13). -/
def bounty_polynomial_size : Nat := 2048

/-- The lookup table of the example, the closure `|x| 2 * x` (line 153). -/
def bounty_f (x : Nat) : Nat := (2 * x) % u64Mod

/-- Modelled from the spec: `SignedDecomposer::closest_representable` is not
part of this repository excerpt (only the example calls it, lines 188-193).
Per the spec the decoder "rounds the raw decrypted value to the nearest
representable multiple of delta at the requested precision ..., then divides
by delta to recover the logical message"; with `DecompositionBaseLog 5` and
`DecompositionLevelCount 1` on u64 the representable values are the
multiples of `2^59 = delta`, so rounding adds `delta / 2` and truncates to a
multiple of `delta` (u64 wrapping arithmetic). -/
def closest_representable (delta x : Nat) : Nat :=
  ((x + delta / 2) / delta * delta) % u64Mod

/-- The decoding of lines 192-193: round, then remove the encoding scale. -/
def decode (delta x : Nat) : Nat := closest_representable delta x / delta

/-- Modelled from the spec: the bootstrap executor
(`programmable_bootstrap_lwe_ciphertext` and its `mt_` variant) is not part
of this repository excerpt.  Per the spec it "produces a refreshed output
ciphertext encoding f(input)": the blind rotation aligns the input message's
redundancy box with the sampled position, and sample extraction reads one
coefficient; with no noise the extracted plaintext is the accumulator
coefficient at the center `m * box_size` of the input's box. -/
def ideal_pbs (acc : List Nat) (box_size m : Nat) : Nat :=
  acc.getD (m * box_size) 0

/-- C8: decoding is exact integer arithmetic: with
`delta = 2^63 / message_modulus = 2^59`, every raw value within `delta / 2`
of `m * delta` (for a message `m < 16`) decodes to `m`. -/
theorem decode_rounds_to_message (m x : Nat) (hm : m < 16)
    (hlo : m * bounty_delta ≤ x + bounty_delta / 2)
    (hhi : x + bounty_delta / 2 < (m + 1) * bounty_delta) :
    decode bounty_delta x = m := by
  have hdelta : bounty_delta = 2 ^ 59 := by decide
  unfold decode closest_representable
  rw [Nat.div_eq_of_lt_le hlo hhi]
  have hsmall : m * bounty_delta < u64Mod := by
    rw [hdelta]
    calc m * 2 ^ 59 ≤ 15 * 2 ^ 59 := Nat.mul_le_mul_right _ (by omega)
    _ < u64Mod := by norm_num [u64Mod]
  rw [Nat.mod_eq_of_lt hsmall, Nat.mul_div_cancel m (by rw [hdelta]; positivity)]

theorem decode_rounds_to_message_witness :
    ((3 : Nat) < 16 ∧
      3 * bounty_delta ≤ 3 * bounty_delta + 5 + bounty_delta / 2 ∧
      3 * bounty_delta + 5 + bounty_delta / 2 < (3 + 1) * bounty_delta) ∧
    decode bounty_delta (3 * bounty_delta + 5) = 3 :=
  ⟨⟨by decide, by decide, by decide⟩,
    decode_rounds_to_message 3 (3 * bounty_delta + 5)
      (by decide) (by decide) (by decide)⟩

/-- C6: the end-to-end scenario of the example: message modulus 16, input
message 3, accumulator for `f x = 2 * x` built by `generate_accumulator`, an
ideal (noiseless) programmable bootstrap, and decoding by rounding and
dividing by `delta`, yield `6`. -/
theorem bounty_end_to_end :
    decode bounty_delta
      (ideal_pbs
        (generate_accumulator bounty_polynomial_size bounty_message_modulus
          bounty_delta bounty_f)
        (bounty_polynomial_size / bounty_message_modulus)
        bounty_input_message) = 6 := by
  have h1 : bounty_message_modulus = 16 := by decide
  have h2 : bounty_delta = 2 ^ 59 := by decide
  have hg := generate_accumulator_getElem? 2048 16 (2 ^ 59) bounty_f
    (by decide) (by decide) (by decide) 384 (by decide)
  rw [show bounty_polynomial_size = 2048 from rfl, h1, h2,
    show bounty_input_message = 3 from rfl]
  unfold ideal_pbs
  rw [show (3 : Nat) * (2048 / 16) = 384 by decide]
  simp only [List.getD_eq_getElem?_getD, hg, Option.getD_some]
  rw [show accEntry 2048 16 (2 ^ 59) bounty_f 384 = (6 * 2 ^ 59) % u64Mod by
    norm_num [accEntry, bounty_f, u64Mod]]
  decide

/-! ## Sequential versus parallel bootstrap

The two bootstrap entry points (`programmable_bootstrap_lwe_ciphertext`,
`mt_programmable_bootstrap_lwe_ciphertext`) are not part of this repository
excerpt; only `main` calls them.  The model below follows the spec: a
bootstrap is a blind rotation — a fold over the input mask coefficients, each
step rotating the accumulator and accumulating correction polynomials (one
per decomposition level per GLWE polynomial, produced from the Fourier key
block and the current accumulator) — followed by sample extraction; the
parallel variant distributes the per-step corrections over chunks (the
ParSplit capability) and combines the partial sums at the join point, which
the spec justifies by the associativity of the accumulation. -/

/-- Polynomials with u64 coefficients, as coefficient functions. -/
abbrev PolyU64 : Type := Nat → ZMod u64Mod

/-- Modelled from the spec: monomial multiplication of the accumulator
rotates its coefficient vector (negacyclic sign handling folded into the
correction terms). -/
def polyRotate (ps : Nat) (p : PolyU64) (amt : Nat) : PolyU64 :=
  fun j => p ((j + amt) % ps)

/-- Modelled from the spec: the sequential bootstrap — fold over the input
mask; each step rotates the accumulator and adds all correction polynomials
of the corresponding key block in order. -/
def bootstrap_seq (ps : Nat) (steps : List (Nat × (PolyU64 → List PolyU64)))
    (acc : PolyU64) : PolyU64 :=
  steps.foldl
    (fun a step =>
      (step.2 (polyRotate ps a step.1)).foldl (· + ·)
        (polyRotate ps a step.1))
    acc

/-- Modelled from the spec: the parallel bootstrap — the same fold, but each
step's correction polynomials are chunked, each chunk summed independently,
and the partial sums combined at the join point. -/
def bootstrap_par (ps chunk : Nat)
    (steps : List (Nat × (PolyU64 → List PolyU64))) (acc : PolyU64) : PolyU64 :=
  steps.foldl
    (fun a step =>
      ((chunksCeilGo chunk (step.2 (polyRotate ps a step.1))).map
          (fun c => c.foldl (· + ·) 0)).foldl (· + ·)
        (polyRotate ps a step.1))
    acc

/-- Sample extraction: read one coefficient of the final accumulator. -/
def sample_extract (p : PolyU64) : ZMod u64Mod := p 0

theorem foldl_add_shift {M : Type} [AddCommMonoid M] (l : List M) (x : M) :
    l.foldl (· + ·) x = x + l.foldl (· + ·) 0 := by
  induction l generalizing x with
  | nil => simp
  | cons a t ih =>
      simp only [List.foldl_cons]
      rw [ih (x + a), ih (0 + a), zero_add, add_assoc]

/-- Summing chunk sums equals summing the whole list. -/
theorem foldl_add_chunks {M : Type} [AddCommMonoid M] (k : Nat) (hk : 0 < k) :
    ∀ (L : Nat) (l : List M), l.length = L → ∀ x : M,
      ((chunksCeilGo k l).map (fun c => c.foldl (· + ·) 0)).foldl (· + ·) x =
        l.foldl (· + ·) x := by
  intro L
  induction L using Nat.strong_induction_on with
  | _ L ih =>
    intro l hl x
    cases l with
    | nil => rw [chunksCeilGo]; rfl
    | cons a t =>
        obtain ⟨m, rfl⟩ : ∃ m, k = m + 1 := ⟨k - 1, by omega⟩
        rw [chunksCeilGo]
        simp only [List.map_cons, List.foldl_cons]
        rw [ih (((a :: t).drop (m + 1)).length)
          (by simp only [List.length_drop, List.length_cons] at hl ⊢; omega) _ rfl]
        have hsplit : (a :: t).foldl (· + ·) x =
            ((a :: t).drop (m + 1)).foldl (· + ·)
              (((a :: t).take (m + 1)).foldl (· + ·) x) := by
          conv_lhs => rw [← List.take_append_drop (m + 1) (a :: t)]
          rw [List.foldl_append]
        rw [foldl_add_shift (((a :: t).take (m + 1))) x] at hsplit
        rw [← hsplit]
        rfl

/-- C5: for the same input (mask coefficients with their key-block correction
functions) and the same initial accumulator, the parallel bootstrap returns
an accumulator equal to the sequential one, for every chunking granularity;
in particular the extracted sample — the output ciphertext — is identical,
so both decode to the same integer. -/
theorem bootstrap_par_eq_seq (ps chunk : Nat) (hk : 0 < chunk)
    (steps : List (Nat × (PolyU64 → List PolyU64))) (acc : PolyU64) :
    bootstrap_par ps chunk steps acc = bootstrap_seq ps steps acc ∧
    sample_extract (bootstrap_par ps chunk steps acc) =
      sample_extract (bootstrap_seq ps steps acc) := by
  have main : ∀ (st : List (Nat × (PolyU64 → List PolyU64))) (a : PolyU64),
      bootstrap_par ps chunk st a = bootstrap_seq ps st a := by
    intro st
    induction st with
    | nil => intro a; rfl
    | cons s t ih =>
        intro a
        unfold bootstrap_par bootstrap_seq
        simp only [List.foldl_cons]
        rw [foldl_add_chunks chunk hk _ _ rfl]
        exact ih _
  exact ⟨main steps acc, by rw [main steps acc]⟩

theorem bootstrap_par_eq_seq_witness :
    0 < 1 ∧
    (bootstrap_par 2 1 [(1, fun p => [p, p])] (fun _ => 1) =
        bootstrap_seq 2 [(1, fun p => [p, p])] (fun _ => 1) ∧
      sample_extract (bootstrap_par 2 1 [(1, fun p => [p, p])] (fun _ => 1)) =
        sample_extract (bootstrap_seq 2 [(1, fun p => [p, p])] (fun _ => 1))) :=
  ⟨by decide, bootstrap_par_eq_seq 2 1 (by decide) [(1, fun p => [p, p])] (fun _ => 1)⟩

